import Mathlib

/-!
Verification of the redup scan–hash–aggregate pipeline

Shallow embedding of `src/src/main.rs` (brice-v/redup).  The program walks
one or more roots, hashes every regular file it finds with Rust's
`DefaultHasher` (SipHash-1-3 keyed with (0,0)) over 8 KiB read chunks, and
aggregates paths into a map from 64-bit fingerprint to the list of paths
sharing that fingerprint.

Modelling conventions:
* bytes are `Nat` values (< 256 by convention), file contents are `List Nat`;
* the external filesystem (walkdir, `canonicalize`, `is_dir`, file reads) is
  a `FileSys` record of pure functions; a `read` failure (`Except.error`)
  covers both "cannot open" and "read failed partway", since the Rust code
  maps both to `Err` before The task converts the result with `.ok()`;
* machine integers are `Nat` reduced modulo `2 ^ 64` where overflow matters;
* each `blocking_send` on the bounded channel is one element of the
  discovery list, in discovery order; the driver spawns one task per
  received path, so the multiset of task outcomes is fixed, while the
  completion order observed by `join_next` is an arbitrary permutation of
  it — theorems quantify over that permutation;
* Rust's `HashMap<u64, Vec<String>>` is an association list with distinct
  keys (`HMap`); all observations made of it by the program (lookup,
  counts, sizes) are insensitive to key order.
-/

namespace Redup

/-! Section: Fingerprint: DefaultHasher = SipHash-1-3 with keys (0, 0)

`hash_file_contents` (main.rs:218-253) reads the file in 8192-byte chunks
and feeds each chunk `buffer[..bytes_read]` to `Hash::hash` for `[u8]`,
which writes the slice length (`write_usize`, 8 little-endian bytes on a
64-bit target) followed by the raw bytes.  The streaming SipHash state over
several `write` calls equals the one-shot hash of the concatenated byte
stream, which is what we compute. -/

/-- Modulus of 64-bit machine arithmetic. -/
def W64 : Nat := 2 ^ 64

/-- The four 64-bit words of the SipHash internal state. -/
structure SipState where
  v0 : Nat
  v1 : Nat
  v2 : Nat
  v3 : Nat

/-- Wrapping 64-bit addition. -/
def wadd (a b : Nat) : Nat := (a + b) % W64

/-- Left rotation of a 64-bit operand (assumed `< W64`). -/
def rotl (x n : Nat) : Nat := ((x <<< n) % W64) ||| (x >>> (64 - n))

/-- One SipHash round (the `compress!` macro of Rust's `sip.rs`). -/
def sipround (s : SipState) : SipState :=
  let v0 := wadd s.v0 s.v1
  let v1 := rotl s.v1 13
  let v1 := v1 ^^^ v0
  let v0 := rotl v0 32
  let v2 := wadd s.v2 s.v3
  let v3 := rotl s.v3 16
  let v3 := v3 ^^^ v2
  let v0 := wadd v0 v3
  let v3 := rotl v3 21
  let v3 := v3 ^^^ v0
  let v2 := wadd v2 v1
  let v1 := rotl v1 17
  let v1 := v1 ^^^ v2
  let v2 := rotl v2 32
  ⟨v0, v1, v2, v3⟩

/-- Absorb one 8-byte little-endian word: `v3 ^= m`, one round, `v0 ^= m`. -/
def sipProcessWord (s : SipState) (m : Nat) : SipState :=
  let s1 : SipState := ⟨s.v0, s.v1, s.v2, s.v3 ^^^ m⟩
  let s2 := sipround s1
  ⟨s2.v0 ^^^ m, s2.v1, s2.v2, s2.v3⟩

/-- Initial state of `SipHasher13::new_with_keys(0, 0)`, the state behind
`DefaultHasher::new()`. -/
def sipInit : SipState :=
  ⟨0x736f6d6570736575, 0x646f72616e646f6d, 0x6c7967656e657261, 0x7465646279746573⟩

/-- Little-endian word value of a byte list (first byte least significant). -/
def leWord (bytes : List Nat) : Nat := bytes.foldr (fun b acc => b + 256 * acc) 0

/-- Little-endian byte encoding of `v` in `k` bytes (`usize::to_ne_bytes`
on x86-64). -/
def leBytes : Nat → Nat → List Nat
  | 0, _ => []
  | k + 1, v => (v % 256) :: leBytes k (v / 256)

/-- Split a list into consecutive chunks of size `n` (last chunk may be
shorter); `fuel` bounds the recursion and is instantiated with the list
length, which suffices for `n ≥ 1`. -/
def chunksOfAux (n : Nat) : Nat → List α → List (List α)
  | 0, _ => []
  | _, [] => []
  | fuel + 1, l => l.take n :: chunksOfAux n fuel (l.drop n)

/-- Consecutive chunks of size `n` of a list, as produced by the 8 KiB read
loop (`reader.read` filling `buffer` completely except on the last read). -/
def chunksOf (n : Nat) (l : List α) : List (List α) := chunksOfAux n l.length l

/-- SipHash-1-3 with keys (0,0) of a whole byte stream: absorb every full
8-byte little-endian word, then finalize with
`b = ((len & 0xff) << 56) | tail`, `v2 ^= 0xff` and three more rounds. -/
def siphash13 (msg : List Nat) : Nat :=
  let fullWords := msg.length / 8
  let s := ((chunksOf 8 msg).take fullWords).foldl (fun s c => sipProcessWord s (leWord c)) sipInit
  let tail := msg.drop (fullWords * 8)
  let b := ((msg.length % 256) <<< 56) ||| leWord tail
  let s1 := sipProcessWord s b
  let s2 : SipState := ⟨s1.v0, s1.v1, s1.v2 ^^^ 0xff, s1.v3⟩
  let s3 := sipround (sipround (sipround s2))
  ((s3.v0 ^^^ s3.v1) ^^^ s3.v2) ^^^ s3.v3

/-- Read-loop chunk size of `hash_file_contents` (main.rs:231). -/
def CHUNK_SIZE : Nat := 8192

/-- The byte stream fed to the hasher by the read loop of
`hash_file_contents` (main.rs:234-248): for each 8192-byte chunk,
`buffer[..bytes_read].hash(&mut hasher)` writes the 8-byte little-endian
chunk length followed by the chunk bytes. -/
def hashed_stream (content : List Nat) : List Nat :=
  ((chunksOf CHUNK_SIZE content).map (fun c => leBytes 8 c.length ++ c)).flatten

/-- The 64-bit fingerprint `hasher.finish()` computes for a file with the
given byte content (main.rs:250). -/
def file_fingerprint (content : List Nat) : Nat := siphash13 (hashed_stream content)

/-! Section: Filesystem model and discovery -/

/-- One entry yielded by `WalkDir`: its path and whether `is_dir()` holds. -/
structure Entry where
  path : String
  is_dir : Bool
deriving DecidableEq

/-- The external filesystem, as seen through the primitives the program
uses: `fs::canonicalize` (main.rs:354), `Path::is_dir`, `WalkDir`
(error entries included — the program discards them with `.flatten()`),
and file open/read (`None`-like failures modelled as `Except.error`). -/
structure FileSys where
  canonicalize : String → Option String
  is_dir : String → Bool
  walk : String → List (Except String Entry)
  read : String → Except String (List Nat)

/-- Directory-mode walker task (main.rs:269-288): iterate
`WalkDir::new(directory)`, `.flatten()` away error entries, skip
directories, and `blocking_send` every other entry's path verbatim —
no canonicalization is applied. The resulting list is the sequence of
paths pushed into the bounded queue, in order. -/
def discovered_paths_dir (fsys : FileSys) (directory : String) : List String :=
  ((fsys.walk directory).filterMap Except.toOption).filterMap
    (fun e => if e.is_dir then none else some e.path)

/-- Paths contributed to the queue by one stdin line (main.rs:349-374):
empty lines are skipped, `canonicalize` failures are skipped, canonical
directories are walked (error entries flattened away, sub-directories
skipped), canonical files are sent directly. -/
def line_contribution (fsys : FileSys) (file_path : String) : List String :=
  if file_path.isEmpty then []
  else
    match fsys.canonicalize file_path with
    | none => []
    | some abs_path =>
      if fsys.is_dir abs_path then
        ((fsys.walk abs_path).filterMap Except.toOption).filterMap
          (fun e => if e.is_dir then none else some e.path)
      else [abs_path]

/-- Stdin-list-mode walker task (main.rs:347-377): concatenation of the
per-line contributions, in input order. -/
def discovered_paths_list (fsys : FileSys) : List String → List String
  | [] => []
  | f :: rest => line_contribution fsys f ++ discovered_paths_list fsys rest

/-! Section: Hash tasks and aggregation -/

/-- Embedding of `hash_file_contents` (main.rs:218-253): open and stream the file; on
success return `(fingerprint, path)`, on open or read failure return the
error. -/
def hash_file_contents (read : String → Except String (List Nat))
    (file_path : String) : Except String (Nat × String) :=
  match read file_path with
  | Except.error e => Except.error e
  | Except.ok content => Except.ok (file_fingerprint content, file_path)

/-- The driver loop (main.rs:292-302): one task is spawned per queued path,
and each task yields `(hash_file_contents path).ok()`.  The list is the
multiset of outcomes held by the `JoinSet`, in spawn order. -/
def spawn_tasks (read : String → Except String (List Nat))
    (paths : List String) : List (Option (Nat × String)) :=
  paths.map (fun p => (hash_file_contents read p).toOption)

/-- The aggregation map `HashMap<u64, Vec<String>>`, as an association list
with pairwise-distinct keys. -/
abbrev HMap := List (Nat × List String)

/-- Lookup of a fingerprint's group (`m.get(&hash)`). -/
def lookupGroup (h : Nat) : HMap → Option (List String)
  | [] => none
  | (k, v) :: rest => if k = h then some v else lookupGroup h rest

/-- Rust `m.entry(hash).or_default().push(path)` (main.rs:316): append `path` at
the tail of the group of `hash`, creating a singleton group if the key is
new. -/
def insertPush (h : Nat) (p : String) : HMap → HMap
  | [] => [(h, [p])]
  | (k, v) :: rest =>
    if k = h then (k, v ++ [p]) :: rest else (k, v) :: insertPush h p rest

/-- Application of one `join_next` result by the drain loop
(main.rs:311-327): a successful outcome is inserted, an empty outcome
(`Ok(None)`) only bumps the failure counter and leaves the map unchanged. -/
def apply_outcome (m : HMap) : Option (Nat × String) → HMap
  | some (hash, path) => insertPush hash path m
  | none => m

/-- The drain loop (main.rs:309-327): fold the completed outcomes, in
completion order, into the map. -/
def collect_results (m : HMap) (results : List (Option (Nat × String))) : HMap :=
  results.foldl apply_outcome m

/-- Embedding of `find_duplicates_from_directory` (main.rs:255-331) under the canonical
(spawn-order) completion schedule; theorems about schedule-independence
quantify over permutations of `spawn_tasks ...` fed to `collect_results`.
The only fallible step in the Rust body is `semaphore.acquire_owned().await?`,
which cannot fail because the semaphore is never closed, so the function
always returns `Ok`. -/
def find_duplicates_from_directory (fsys : FileSys) (directory : String)
    (m : HMap) : Except String HMap :=
  Except.ok (collect_results m (spawn_tasks fsys.read (discovered_paths_dir fsys directory)))

/-- Embedding of `find_duplicates_from_list` (main.rs:333-420), same conventions as
`find_duplicates_from_directory`. -/
def find_duplicates_from_list (fsys : FileSys) (files : List String)
    (m : HMap) : Except String HMap :=
  Except.ok (collect_results m (spawn_tasks fsys.read (discovered_paths_list fsys files)))

/-! Section: Summary counters (run, main.rs:117-120) -/

/-- Counter `m.values().map(|v| v.len()).sum()` (main.rs:117). -/
def total_files (m : HMap) : Nat := (m.map (fun kv => kv.2.length)).sum

/-- Counter `m.len()` (main.rs:118). -/
def unique_hashes (m : HMap) : Nat := m.length

/-- Counter `m.values().filter(|v| v.len() > 1).count()` (main.rs:119). -/
def duplicate_groups (m : HMap) : Nat :=
  ((m.map (fun kv => kv.2)).filter (fun v => v.length > 1)).length

/-- Counter `m.values().filter(|v| v.len() > 1).map(|v| v.len()).sum()` (main.rs:120). -/
def duplicate_files (m : HMap) : Nat :=
  (((m.map (fun kv => kv.2)).filter (fun v => v.length > 1)).map (fun v => v.length)).sum

/-! Section: Observation helpers -/

/-- Number of occurrences of path `p` across all groups of the map. -/
def pathCount (m : HMap) (p : String) : Nat :=
  (m.map (fun kv => kv.2.count p)).sum

/-- Number of occurrences of path `p` inside the group of fingerprint `h`. -/
def groupCount (m : HMap) (h : Nat) (p : String) : Nat :=
  ((lookupGroup h m).getD []).count p

/-- The keys of the map, in order. -/
def mapKeys (m : HMap) : List Nat := m.map Prod.fst

/-- Whether an outcome is a success carrying path `p`. -/
def outcomeHasPath (p : String) : Option (Nat × String) → Bool
  | some (_, q) => q == p
  | none => false

/-- Whether an outcome is exactly the success `(h, p)`. -/
def isOutcome (h : Nat) (p : String) : Option (Nat × String) → Bool
  | some (h', p') => h' == h && p' == p
  | none => false

/-- A string is an absolute path iff it starts with `/`. -/
def isAbsolutePath (p : String) : Bool :=
  match p.data with
  | [] => false
  | c :: _ => c = '/'

/-! Section: Spec-side counter definitions (for refinement of the claim's words)

These follow the spec's phrasing — "the sum of all group sizes, the number
of map keys [distinct fingerprints], the number of groups of size ≥ 2, and
the sum of sizes of groups of size ≥ 2" — and are compared with the code's
counters above. -/

/-- Spec: the sum of all group sizes. -/
def spec_sum_of_group_sizes (m : HMap) : Nat :=
  m.foldr (fun g acc => g.2.length + acc) 0

/-- Spec: the number of distinct fingerprints occurring as keys. -/
def spec_distinct_fingerprints (m : HMap) : Nat := (mapKeys m).dedup.length

/-- Spec: the number of groups of cardinality ≥ 2. -/
def spec_duplicate_groups (m : HMap) : Nat :=
  (m.filter (fun g => 2 ≤ g.2.length)).length

/-- Spec: the sum of sizes of groups of cardinality ≥ 2. -/
def spec_duplicate_files (m : HMap) : Nat :=
  ((m.filter (fun g => 2 ≤ g.2.length)).map (fun g => g.2.length)).sum

/-! Section: ConcurrencyGate model (semaphore + tasks, main.rs:263, 295-301)

Each hash task goes through the phases waiting (not yet dispatched) →
holding (permit acquired by the driver at main.rs:295, file handle open
inside the task) → done (`_permit` dropped when the task body finishes,
main.rs:299).  `execEvent` is the instrumented acquire/release semantics:
an acquire needs a free permit and a waiting task, a release needs that
task to be holding.  `runGate` executes a schedule; invalid schedules are
rejected (`none`). -/

/-- Phase of one dispatched hash task with respect to the permit pool. -/
inductive TaskPhase where
  | waiting
  | holding
  | done
deriving DecidableEq

/-- Permit pool plus per-task phases. -/
structure GateState where
  available : Nat
  tasks : List TaskPhase
deriving DecidableEq

/-- An instrumentation event: task `i` acquires or releases its permit. -/
inductive GateEvent where
  | acquire (i : Nat)
  | release (i : Nat)
deriving DecidableEq

/-- Initial state: `Semaphore::new(100)` (main.rs:263) and `m` pending
tasks. -/
def initGate (m : Nat) : GateState := ⟨100, List.replicate m TaskPhase.waiting⟩

/-- One instrumented step: acquiring suspends unless a permit is free
(modelled as the event not being enabled), and only a waiting task
acquires; only a holding task releases, which returns the permit. -/
def execEvent (s : GateState) : GateEvent → Option GateState
  | GateEvent.acquire i =>
    if s.tasks[i]? = some TaskPhase.waiting ∧ 0 < s.available then
      some ⟨s.available - 1, s.tasks.set i TaskPhase.holding⟩
    else none
  | GateEvent.release i =>
    if s.tasks[i]? = some TaskPhase.holding then
      some ⟨s.available + 1, s.tasks.set i TaskPhase.done⟩
    else none

/-- Run a schedule of events from a state; `none` if some event is not
enabled where it occurs. -/
def runGate (s : GateState) : List GateEvent → Option GateState
  | [] => some s
  | e :: es =>
    match execEvent s e with
    | none => none
    | some s' => runGate s' es

/-- Number of tasks currently holding a permit (and hence an open file
handle). -/
def countHolding (ts : List TaskPhase) : Nat :=
  ts.countP (fun t => t == TaskPhase.holding)

/-- Is this event an acquire by task `i`? -/
def isAcquireOf (i : Nat) : GateEvent → Bool
  | GateEvent.acquire j => j == i
  | _ => false

/-- Is this event a release by task `i`? -/
def isReleaseOf (i : Nat) : GateEvent → Bool
  | GateEvent.release j => j == i
  | _ => false

/-- Number of acquires by task `i` in a schedule. -/
def countAcquires (trace : List GateEvent) (i : Nat) : Nat :=
  trace.countP (isAcquireOf i)

/-- Number of releases by task `i` in a schedule. -/
def countReleases (trace : List GateEvent) (i : Nat) : Nat :=
  trace.countP (isReleaseOf i)

/-- Rank that is 1 once the task has acquired its permit (phase past waiting). -/
def startedRank : TaskPhase → Nat
  | TaskPhase.waiting => 0
  | _ => 1

/-- Rank that is 1 once the task has released its permit (phase done). -/
def finishedRank : TaskPhase → Nat
  | TaskPhase.done => 1
  | _ => 0

/-- Phase of task `i`; out-of-range indices read as `done` (they can never
be the subject of an event). -/
def phaseAt (s : GateState) (i : Nat) : TaskPhase :=
  (s.tasks[i]?).getD TaskPhase.done

/-! Section: Concrete filesystems and read functions used by witnesses -/

/-- A filesystem in which every root is missing: `WalkDir` yields a single
error entry (what it produces for a nonexistent root) and nothing can be
read. -/
def fsMissingRoot : FileSys where
  canonicalize := fun _ => none
  is_dir := fun _ => false
  walk := fun _ => [Except.error "No such file or directory (os error 2)"]
  read := fun _ => Except.error "unreadable"

/-- A filesystem as seen when the program is started with the relative root
`d` containing one regular file: `WalkDir::new("d")` yields the root
directory entry `d` and the file entry `d/f`, both relative. -/
def fsRelativeRoot : FileSys where
  canonicalize := fun _ => none
  is_dir := fun _ => false
  walk := fun _ => [Except.ok ⟨"d", true⟩, Except.ok ⟨"d/f", false⟩]
  read := fun _ => Except.ok [104, 105]

/-- A filesystem whose root is an empty directory: the walk yields only the
directory entry itself. -/
def fsEmptyDir : FileSys where
  canonicalize := fun _ => none
  is_dir := fun _ => true
  walk := fun _ => [Except.ok ⟨"/d", true⟩]
  read := fun _ => Except.error "unused"

/-- Read function for small witness runs: files `a` and `b` hold identical
content, `c` different content, everything else fails to open. -/
def readDemo : String → Except String (List Nat) := fun p =>
  if p = "a" ∨ p = "b" then Except.ok [104, 105]
  else if p = "c" then Except.ok [119] else Except.error "denied"

/-- Filesystem for the stdin-list witnesses: line `x` canonicalizes to the
regular file `/x` (content `[7]`), line `y` to `/y` (content `[8]`), and
every other line fails to canonicalize. -/
def fsListDemo : FileSys where
  canonicalize := fun p =>
    if p = "x" then some "/x" else if p = "y" then some "/y" else none
  is_dir := fun _ => false
  walk := fun _ => []
  read := fun p =>
    if p = "/x" then Except.ok [7]
    else if p = "/y" then Except.ok [8] else Except.error "denied"

/-! Section: Lemmas about the aggregation map -/

theorem lookupGroup_insertPush_self (m : HMap) (h : Nat) (p : String) :
    lookupGroup h (insertPush h p m) = some (((lookupGroup h m).getD []) ++ [p]) := by
  induction m with
  | nil => simp [insertPush, lookupGroup]
  | cons kv rest ih =>
    obtain ⟨k, v⟩ := kv
    by_cases hk : k = h
    · subst hk
      simp [insertPush, lookupGroup]
    · simp [insertPush, lookupGroup, hk, ih]

theorem lookupGroup_insertPush_ne (m : HMap) {k h : Nat} (p : String) (hne : k ≠ h) :
    lookupGroup h (insertPush k p m) = lookupGroup h m := by
  induction m with
  | nil => simp [insertPush, lookupGroup, hne]
  | cons kv rest ih =>
    obtain ⟨k', v⟩ := kv
    by_cases hk : k' = k
    · subst hk
      simp [insertPush, lookupGroup, hne, Ne.symm hne]
    · by_cases hk2 : k' = h
      · subst hk2
        simp [insertPush, lookupGroup, hk, Ne.symm hne]
      · simp [insertPush, lookupGroup, hk, hk2, ih]

theorem pathCount_insertPush (m : HMap) (h : Nat) (p q : String) :
    pathCount (insertPush h p m) q = pathCount m q + (if p = q then 1 else 0) := by
  induction m with
  | nil => simp [insertPush, pathCount, List.count_singleton, beq_iff_eq]
  | cons kv rest ih =>
    obtain ⟨k, v⟩ := kv
    by_cases hk : k = h
    · subst hk
      by_cases hpq : p = q <;>
        simp [insertPush, pathCount, List.count_append, List.count_singleton,
          beq_iff_eq, hpq] <;> omega
    · simp only [insertPush, if_neg hk, pathCount, List.map_cons, List.sum_cons] at ih ⊢
      by_cases hpq : p = q <;> simp [hpq] at ih ⊢ <;> omega

theorem total_files_insertPush (m : HMap) (h : Nat) (p : String) :
    total_files (insertPush h p m) = total_files m + 1 := by
  induction m with
  | nil => simp [insertPush, total_files]
  | cons kv rest ih =>
    obtain ⟨k, v⟩ := kv
    by_cases hk : k = h
    · subst hk
      simp [insertPush, total_files]
      omega
    · simp only [insertPush, if_neg hk, total_files, List.map_cons, List.sum_cons] at ih ⊢
      omega

theorem mapKeys_insertPush (m : HMap) (h : Nat) (p : String) :
    mapKeys (insertPush h p m)
      = if h ∈ mapKeys m then mapKeys m else mapKeys m ++ [h] := by
  induction m with
  | nil => simp [insertPush, mapKeys]
  | cons kv rest ih =>
    obtain ⟨k, v⟩ := kv
    by_cases hk : k = h
    · subst hk
      simp [insertPush, mapKeys]
    · have hk' : ¬h = k := fun hcontra => hk hcontra.symm
      have hstep : insertPush h p ((k, v) :: rest) = (k, v) :: insertPush h p rest := by
        simp [insertPush, hk]
      rw [hstep]
      simp only [mapKeys, List.map_cons] at ih ⊢
      rw [ih]
      by_cases hm : h ∈ List.map Prod.fst rest
      · simp [hm, hk']
      · simp [hm, hk']

theorem nodup_mapKeys_insertPush {m : HMap} (h : Nat) (p : String)
    (hm : (mapKeys m).Nodup) : (mapKeys (insertPush h p m)).Nodup := by
  rw [mapKeys_insertPush]
  by_cases hmem : h ∈ mapKeys m
  · simpa [hmem] using hm
  · rw [if_neg hmem, List.nodup_append]
    refine ⟨hm, List.nodup_singleton _, ?_⟩
    intro a ha hb
    simp at hb
    subst hb
    exact hmem ha

theorem nodup_mapKeys_apply_outcome {m : HMap} (o : Option (Nat × String))
    (hm : (mapKeys m).Nodup) : (mapKeys (apply_outcome m o)).Nodup := by
  cases o with
  | none => exact hm
  | some hp =>
    obtain ⟨h, p⟩ := hp
    exact nodup_mapKeys_insertPush h p hm

theorem nodup_mapKeys_collect (os : List (Option (Nat × String))) (m : HMap)
    (hm : (mapKeys m).Nodup) : (mapKeys (collect_results m os)).Nodup := by
  induction os generalizing m with
  | nil => exact hm
  | cons o rest ih => exact ih _ (nodup_mapKeys_apply_outcome o hm)

/-! Section: Lemmas about applying outcomes -/

theorem pathCount_apply_outcome (m : HMap) (o : Option (Nat × String)) (q : String) :
    pathCount (apply_outcome m o) q
      = pathCount m q + (if outcomeHasPath q o then 1 else 0) := by
  cases o with
  | none => simp [apply_outcome, outcomeHasPath]
  | some hp =>
    obtain ⟨h, p⟩ := hp
    simp [apply_outcome, outcomeHasPath, pathCount_insertPush, beq_iff_eq]

theorem total_files_apply_outcome (m : HMap) (o : Option (Nat × String)) :
    total_files (apply_outcome m o)
      = total_files m + (if o.isSome then 1 else 0) := by
  cases o with
  | none => simp [apply_outcome]
  | some hp =>
    obtain ⟨h, p⟩ := hp
    simp [apply_outcome, total_files_insertPush]

theorem groupCount_apply_outcome (m : HMap) (o : Option (Nat × String))
    (h : Nat) (p : String) :
    groupCount (apply_outcome m o) h p
      = groupCount m h p + (if isOutcome h p o then 1 else 0) := by
  cases o with
  | none => simp [apply_outcome, isOutcome]
  | some hp =>
    obtain ⟨h', p'⟩ := hp
    by_cases hh : h' = h
    · subst hh
      by_cases hp' : p' = p <;>
        simp [apply_outcome, groupCount, lookupGroup_insertPush_self, isOutcome,
          List.count_append, List.count_singleton, beq_iff_eq, hp']
    · simp [apply_outcome, groupCount, lookupGroup_insertPush_ne _ _ hh, isOutcome, hh]

/-! Section: Lemmas about draining the join set -/

theorem pathCount_collect (os : List (Option (Nat × String))) (m : HMap) (q : String) :
    pathCount (collect_results m os) q
      = pathCount m q + os.countP (outcomeHasPath q) := by
  induction os generalizing m with
  | nil => simp [collect_results]
  | cons o rest ih =>
    have hstep : collect_results m (o :: rest) = collect_results (apply_outcome m o) rest := rfl
    rw [hstep, ih, pathCount_apply_outcome, List.countP_cons]
    by_cases ho : outcomeHasPath q o <;> simp [ho] <;> omega

theorem total_files_collect (os : List (Option (Nat × String))) (m : HMap) :
    total_files (collect_results m os)
      = total_files m + os.countP (fun o => o.isSome) := by
  induction os generalizing m with
  | nil => simp [collect_results]
  | cons o rest ih =>
    have hstep : collect_results m (o :: rest) = collect_results (apply_outcome m o) rest := rfl
    rw [hstep, ih, total_files_apply_outcome, List.countP_cons]
    by_cases ho : o.isSome <;> simp [ho] <;> omega

theorem groupCount_collect (os : List (Option (Nat × String))) (m : HMap)
    (h : Nat) (p : String) :
    groupCount (collect_results m os) h p
      = groupCount m h p + os.countP (isOutcome h p) := by
  induction os generalizing m with
  | nil => simp [collect_results]
  | cons o rest ih =>
    have hstep : collect_results m (o :: rest) = collect_results (apply_outcome m o) rest := rfl
    rw [hstep, ih, groupCount_apply_outcome, List.countP_cons]
    by_cases ho : isOutcome h p o <;> simp [ho] <;> omega

/-! Section: Lemmas about spawned tasks -/

theorem hash_file_contents_ok {read : String → Except String (List Nat)}
    {p : String} {c : List Nat} (h : read p = Except.ok c) :
    hash_file_contents read p = Except.ok (file_fingerprint c, p) := by
  simp [hash_file_contents, h]

theorem hash_file_contents_err {read : String → Except String (List Nat)}
    {p : String} {e : String} (h : read p = Except.error e) :
    hash_file_contents read p = Except.error e := by
  simp [hash_file_contents, h]

theorem countP_spawn_tasks (read : String → Except String (List Nat))
    (paths : List String) (pred : Option (Nat × String) → Bool) :
    (spawn_tasks read paths).countP pred
      = paths.countP (fun p => pred ((hash_file_contents read p).toOption)) := by
  simp [spawn_tasks, List.countP_map]
  rfl

theorem countP_le_count_of_imp {α : Type} [BEq α] [LawfulBEq α]
    (l : List α) (q : α → Bool) (a : α)
    (h : ∀ x ∈ l, q x = true → x = a) : l.countP q ≤ l.count a := by
  induction l with
  | nil => simp
  | cons x rest ih =>
    rw [List.countP_cons, List.count_cons]
    have hrest := ih (fun y hy => h y (List.mem_cons_of_mem _ hy))
    by_cases hq : q x
    · have hxa : x = a := h x (List.mem_cons_self _ _) hq
      subst hxa
      simp only [hq, if_true, beq_self_eq_true]
      omega
    · simp only [hq, if_false, Bool.false_eq_true]
      by_cases hxa : (x == a) = true <;> simp only [hxa, if_true, if_false] <;> omega

/-! Section: Lemmas about the summary counters -/

theorem total_files_eq_spec (m : HMap) : total_files m = spec_sum_of_group_sizes m := by
  induction m with
  | nil => rfl
  | cons kv rest ih =>
    simp [total_files, spec_sum_of_group_sizes] at ih ⊢
    omega

theorem unique_hashes_eq_spec {m : HMap} (hm : (mapKeys m).Nodup) :
    unique_hashes m = spec_distinct_fingerprints m := by
  unfold unique_hashes spec_distinct_fingerprints
  rw [List.dedup_eq_self.mpr hm]
  simp [mapKeys]

theorem duplicate_groups_eq_spec (m : HMap) :
    duplicate_groups m = spec_duplicate_groups m := by
  unfold duplicate_groups spec_duplicate_groups
  rw [List.filter_map, List.length_map]
  rfl

theorem duplicate_files_eq_spec (m : HMap) :
    duplicate_files m = spec_duplicate_files m := by
  unfold duplicate_files spec_duplicate_files
  rw [List.filter_map, List.map_map]
  rfl

/-! Section: Lemmas about discovery -/

theorem discovered_paths_list_append (fsys : FileSys) (l₁ l₂ : List String) :
    discovered_paths_list fsys (l₁ ++ l₂)
      = discovered_paths_list fsys l₁ ++ discovered_paths_list fsys l₂ := by
  induction l₁ with
  | nil => rfl
  | cons f rest ih => simp [discovered_paths_list, ih]

theorem count_discovered_entries (es : List Entry) (p : String) :
    (es.filterMap (fun e => if e.is_dir then none else some e.path)).count p
      = es.countP (fun e => !e.is_dir && e.path == p) := by
  induction es with
  | nil => rfl
  | cons e rest ih =>
    by_cases hd : e.is_dir
    · simp [List.filterMap_cons, hd, List.countP_cons, ih]
    · by_cases hp : e.path = p <;>
        simp [List.filterMap_cons, hd, List.countP_cons, ih, List.count_cons, hp]

theorem count_discovered_paths_list (fsys : FileSys) (files : List String)
    (l cp : String) (hl : line_contribution fsys l = [cp])
    (hother : ∀ x ∈ files, x ≠ l → cp ∉ line_contribution fsys x) :
    (discovered_paths_list fsys files).count cp = files.count l := by
  induction files with
  | nil => rfl
  | cons x rest ih =>
    have hrest := ih (fun y hy => hother y (List.mem_cons_of_mem _ hy))
    by_cases hx : x = l
    · subst hx
      simp [discovered_paths_list, List.count_append, List.count_cons, hl, hrest]
    · have hz : cp ∉ line_contribution fsys x :=
        hother x (List.mem_cons_self _ _) hx
      have hz' : (line_contribution fsys x).count cp = 0 := List.count_eq_zero.mpr hz
      simp [discovered_paths_list, List.count_append, List.count_cons, hz', hrest, hx]

/-! Section: Lemmas about the concurrency gate -/

theorem phaseAt_eq_of_getElem {s : GateState} {i : Nat} {x : TaskPhase}
    (h : s.tasks[i]? = some x) : phaseAt s i = x := by
  simp [phaseAt, h]

theorem lt_length_of_getElem {ts : List TaskPhase} {i : Nat} {x : TaskPhase}
    (h : ts[i]? = some x) : i < ts.length := by
  by_contra hge
  rw [List.getElem?_eq_none (by omega)] at h
  exact Option.noConfusion h

theorem phaseAt_set_self {av' : Nat} {ts : List TaskPhase} {i : Nat}
    {a old : TaskPhase} (h : ts[i]? = some old) :
    phaseAt ⟨av', ts.set i a⟩ i = a := by
  have hlt : i < ts.length := lt_length_of_getElem h
  simp [phaseAt, List.getElem?_set, hlt]

theorem phaseAt_set_ne {av' : Nat} {s : GateState} {i j : Nat} {a : TaskPhase}
    (hne : i ≠ j) :
    phaseAt ⟨av', s.tasks.set i a⟩ j = phaseAt s j := by
  simp [phaseAt, List.getElem?_set, hne]

theorem countHolding_set_holding {ts : List TaskPhase} {i : Nat}
    (h : ts[i]? = some TaskPhase.waiting) :
    countHolding (ts.set i TaskPhase.holding) = countHolding ts + 1 := by
  induction ts generalizing i with
  | nil => simp at h
  | cons t rest ih =>
    cases i with
    | zero =>
      simp at h
      subst h
      simp [countHolding, List.countP_cons]
    | succ j =>
      simp at h
      have hr := ih h
      simp [countHolding, List.countP_cons] at hr ⊢
      omega

theorem countHolding_set_done {ts : List TaskPhase} {i : Nat}
    (h : ts[i]? = some TaskPhase.holding) :
    countHolding (ts.set i TaskPhase.done) + 1 = countHolding ts := by
  induction ts generalizing i with
  | nil => simp at h
  | cons t rest ih =>
    cases i with
    | zero =>
      simp at h
      subst h
      simp [countHolding, List.countP_cons]
    | succ j =>
      simp at h
      have hr := ih h
      simp [countHolding, List.countP_cons] at hr ⊢
      omega

theorem countAcquires_cons (e : GateEvent) (es : List GateEvent) (j : Nat) :
    countAcquires (e :: es) j
      = countAcquires es j + (if isAcquireOf j e then 1 else 0) :=
  List.countP_cons _ _ _

theorem countReleases_cons (e : GateEvent) (es : List GateEvent) (j : Nat) :
    countReleases (e :: es) j
      = countReleases es j + (if isReleaseOf j e then 1 else 0) :=
  List.countP_cons _ _ _

/-- Core invariant of the instrumented gate: running any valid schedule
preserves `available + holding`, never changes the number of tasks, and
relates per-task acquire/release counts exactly to the phase transition the
task underwent. -/
theorem runGate_spec (trace : List GateEvent) (s s' : GateState)
    (h : runGate s trace = some s') :
    s'.tasks.length = s.tasks.length ∧
    s'.available + countHolding s'.tasks = s.available + countHolding s.tasks ∧
    ∀ i, countAcquires trace i + startedRank (phaseAt s i)
            = startedRank (phaseAt s' i) ∧
         countReleases trace i + finishedRank (phaseAt s i)
            = finishedRank (phaseAt s' i) := by
  induction trace generalizing s with
  | nil =>
    simp [runGate] at h
    subst h
    simp [countAcquires, countReleases]
  | cons e es ih =>
    unfold runGate at h
    cases he : execEvent s e with
    | none =>
      rw [he] at h
      cases h
    | some s1 =>
      rw [he] at h
      obtain ⟨hlen, hinv, hcounts⟩ := ih s1 h
      cases e with
      | acquire i =>
        have hcond : s.tasks[i]? = some TaskPhase.waiting ∧ 0 < s.available := by
          by_contra hc
          simp only [execEvent, if_neg hc] at he
          exact Option.noConfusion he
        simp only [execEvent, if_pos hcond] at he
        obtain ⟨hwait, hpos⟩ := hcond
        injection he with he1
        subst he1
        refine ⟨?_, ?_, ?_⟩
        · rw [hlen]
          dsimp only
          exact List.length_set ..
        · dsimp only at hinv
          have hch := countHolding_set_holding hwait
          omega
        · intro j
          obtain ⟨ha, hr⟩ := hcounts j
          rw [countAcquires_cons, countReleases_cons]
          by_cases hij : i = j
          · subst hij
            rw [phaseAt_set_self hwait] at ha hr
            rw [phaseAt_eq_of_getElem hwait]
            simp [isAcquireOf, isReleaseOf, startedRank, finishedRank] at ha hr ⊢
            omega
          · rw [phaseAt_set_ne hij] at ha hr
            have hba : isAcquireOf j (GateEvent.acquire i) = false := by
              simp [isAcquireOf, hij]
            have hbr : isReleaseOf j (GateEvent.acquire i) = false := by
              simp [isReleaseOf]
            rw [hba, hbr]
            simp only [Bool.false_eq_true, if_false]
            omega
      | release i =>
        have hcond : s.tasks[i]? = some TaskPhase.holding := by
          by_contra hc
          simp only [execEvent, if_neg hc] at he
          exact Option.noConfusion he
        simp only [execEvent, if_pos hcond] at he
        injection he with he1
        subst he1
        refine ⟨?_, ?_, ?_⟩
        · rw [hlen]
          dsimp only
          exact List.length_set ..
        · dsimp only at hinv
          have hcd := countHolding_set_done hcond
          omega
        · intro j
          obtain ⟨ha, hr⟩ := hcounts j
          rw [countAcquires_cons, countReleases_cons]
          by_cases hij : i = j
          · subst hij
            rw [phaseAt_set_self hcond] at ha hr
            rw [phaseAt_eq_of_getElem hcond]
            simp [isAcquireOf, isReleaseOf, startedRank, finishedRank] at ha hr ⊢
            omega
          · rw [phaseAt_set_ne hij] at ha hr
            have hba : isAcquireOf j (GateEvent.release i) = false := by
              simp [isAcquireOf]
            have hbr : isReleaseOf j (GateEvent.release i) = false := by
              simp [isReleaseOf, hij]
            rw [hba, hbr]
            simp only [Bool.false_eq_true, if_false]
            omega

/-! Section: Claims -/

/-- Claim C1, counterexample: Started on a root that does not exist,
`WalkDir` yields one error entry, which the walker's `.flatten()` silently
discards: no file is hashed and the pipeline returns `Ok` with the
untouched empty map — never the typed fatal error the claim requires. -/
theorem C1_counterexample :
    find_duplicates_from_directory fsMissingRoot "/missing" [] = Except.ok [] ∧
    ¬∃ e, find_duplicates_from_directory fsMissingRoot "/missing" [] = Except.error e := by
  constructor
  · rfl
  · rintro ⟨e, he⟩
    simp [find_duplicates_from_directory] at he

/-- Claim C1, amended: A root that does not exist or cannot be opened is not
a fatal error: its walkdir error entries are discarded by `.flatten()`, so
discovery yields no files, no hash task is spawned, and
`find_duplicates_from_directory` completes successfully, returning the
input map unchanged instead of a typed discovery error. -/
theorem C1_root_unavailable (fsys : FileSys) (root : String) (m : HMap)
    (hfail : (fsys.walk root).filterMap Except.toOption = []) :
    spawn_tasks fsys.read (discovered_paths_dir fsys root) = [] ∧
    find_duplicates_from_directory fsys root m = Except.ok m := by
  have hd : discovered_paths_dir fsys root = [] := by
    simp [discovered_paths_dir, hfail]
  constructor
  · simp [spawn_tasks, hd]
  · simp [find_duplicates_from_directory, spawn_tasks, hd, collect_results]

/-- Witness for C1_root_unavailable at the concrete missing-root
filesystem. -/
theorem C1_root_unavailable_witness :
    spawn_tasks fsMissingRoot.read (discovered_paths_dir fsMissingRoot "/missing") = [] ∧
    find_duplicates_from_directory fsMissingRoot "/missing" [] = Except.ok [] :=
  C1_root_unavailable fsMissingRoot "/missing" [] rfl

/-- Claim C3, counterexample: With the relative root `d` containing the file
`d/f`, directory-mode discovery emits the relative, uncanonicalized path
`d/f`, refuting "every CandidatePath is an absolute, canonicalized file
path". -/
theorem C3_counterexample :
    "d/f" ∈ discovered_paths_dir fsRelativeRoot "d" ∧
    isAbsolutePath "d/f" = false := by
  constructor
  · decide
  · rfl

/-- Claim C3, amended: Discovery pushes each discovered file into the queue
exactly once (one queue element per non-directory walk entry), but the
emitted paths are not uniformly absolute and canonicalized: in stdin-list
mode each non-empty top-level file line is canonicalized before emission,
while in directory mode every path is emitted verbatim as walked from the
given root — without canonicalization, hence relative whenever the
supplied root is relative. -/
theorem C3_discovery_paths (fsys : FileSys) (root : String) (files : List String) :
    (∀ l ∈ files, l.isEmpty = false →
      ∀ cp, fsys.canonicalize l = some cp → fsys.is_dir cp = false →
        line_contribution fsys l = [cp]) ∧
    (∀ p ∈ discovered_paths_dir fsys root,
      ∃ e, Except.ok e ∈ fsys.walk root ∧ e.is_dir = false ∧ e.path = p) ∧
    (∀ p, (discovered_paths_dir fsys root).count p
      = ((fsys.walk root).filterMap Except.toOption).countP
          (fun e => !e.is_dir && e.path == p)) := by
  refine ⟨?_, ?_, ?_⟩
  · intro l _ hne cp hc hd
    simp [line_contribution, hne, hc, hd]
  · intro p hp
    unfold discovered_paths_dir at hp
    rw [List.mem_filterMap] at hp
    obtain ⟨e, he, hfe⟩ := hp
    rw [List.mem_filterMap] at he
    obtain ⟨x, hx, htx⟩ := he
    refine ⟨e, ?_, ?_, ?_⟩
    · cases x with
      | ok a =>
        simp [Except.toOption] at htx
        exact htx ▸ hx
      | error err => simp [Except.toOption] at htx
    · by_cases hd : e.is_dir
      · simp [hd] at hfe
      · simpa using hd
    · by_cases hd : e.is_dir
      · simp [hd] at hfe
      · simp [hd] at hfe
        exact hfe
  · intro p
    exact count_discovered_entries _ p

/-- Witness for C3_discovery_paths: the stdin line `x` is canonicalized to
`/x` and contributes exactly that path. -/
theorem C3_discovery_paths_witness :
    line_contribution fsListDemo "x" = ["/x"] :=
  (C3_discovery_paths fsListDemo "d" ["x"]).1 "x" (by decide) rfl "/x" rfl rfl

/-- Claim C8: A root whose walk yields only directories (in particular an
empty directory, which yields just the root entry itself) produces an empty
map under any completion order, the pipeline reports success, and all four
summary counters are zero. -/
theorem C8_empty_root (fsys : FileSys) (root : String)
    (order : List (Option (Nat × String)))
    (hdirs : ∀ e ∈ (fsys.walk root).filterMap Except.toOption, e.is_dir = true)
    (hperm : order.Perm (spawn_tasks fsys.read (discovered_paths_dir fsys root))) :
    collect_results [] order = [] ∧
    find_duplicates_from_directory fsys root [] = Except.ok [] ∧
    total_files (collect_results [] order) = 0 ∧
    unique_hashes (collect_results [] order) = 0 ∧
    duplicate_groups (collect_results [] order) = 0 ∧
    duplicate_files (collect_results [] order) = 0 := by
  have hd : discovered_paths_dir fsys root = [] := by
    unfold discovered_paths_dir
    rw [List.filterMap_eq_nil_iff]
    intro e he
    simp [hdirs e he]
  have hsp : spawn_tasks fsys.read (discovered_paths_dir fsys root) = [] := by
    simp [spawn_tasks, hd]
  have hord : order = [] := List.Perm.eq_nil (hsp ▸ hperm)
  subst hord
  refine ⟨rfl, ?_, rfl, rfl, rfl, rfl⟩
  simp [find_duplicates_from_directory, hsp, collect_results]

/-- Witness for C8_empty_root at the concrete empty-directory
filesystem. -/
theorem C8_empty_root_witness :
    find_duplicates_from_directory fsEmptyDir "/d" [] = Except.ok [] :=
  (C8_empty_root fsEmptyDir "/d" [] (by decide) (List.Perm.refl _)).2.1

/-- Claim C2: Two files with byte-identical content get the same 64-bit
fingerprint: `hash_file_contents` derives the fingerprint from the byte
content alone (the fixed 8 KiB chunked `DefaultHasher` stream), so both
files are hashed to `file_fingerprint c`, and under any completion order
both paths are members of the same group — the one keyed by that shared
fingerprint. -/
theorem C2_identical_content_same_group
    (read : String → Except String (List Nat)) (paths : List String)
    (order : List (Option (Nat × String)))
    (hperm : order.Perm (spawn_tasks read paths))
    (p q : String) (c : List Nat)
    (hp : read p = Except.ok c) (hq : read q = Except.ok c)
    (hpin : p ∈ paths) (hqin : q ∈ paths) :
    hash_file_contents read p = Except.ok (file_fingerprint c, p) ∧
    hash_file_contents read q = Except.ok (file_fingerprint c, q) ∧
    0 < groupCount (collect_results [] order) (file_fingerprint c) p ∧
    0 < groupCount (collect_results [] order) (file_fingerprint c) q := by
  have hcp := hash_file_contents_ok hp
  have hcq := hash_file_contents_ok hq
  refine ⟨hcp, hcq, ?_, ?_⟩
  · rw [groupCount_collect, List.Perm.countP_eq _ hperm, countP_spawn_tasks]
    have h1 : 0 < paths.countP
        (fun r => isOutcome (file_fingerprint c) p ((hash_file_contents read r).toOption)) := by
      rw [List.countP_pos_iff]
      refine ⟨p, hpin, ?_⟩
      rw [hcp]
      simp [isOutcome, Except.toOption]
    simpa [groupCount, lookupGroup] using h1
  · rw [groupCount_collect, List.Perm.countP_eq _ hperm, countP_spawn_tasks]
    have h1 : 0 < paths.countP
        (fun r => isOutcome (file_fingerprint c) q ((hash_file_contents read r).toOption)) := by
      rw [List.countP_pos_iff]
      refine ⟨q, hqin, ?_⟩
      rw [hcq]
      simp [isOutcome, Except.toOption]
    simpa [groupCount, lookupGroup] using h1

/-- Witness for C2_identical_content_same_group: identical files `a` and
`b` land in the same group. -/
theorem C2_witness :
    0 < groupCount (collect_results [] (spawn_tasks readDemo ["a", "b"]))
        (file_fingerprint [104, 105]) "a" ∧
    0 < groupCount (collect_results [] (spawn_tasks readDemo ["a", "b"]))
        (file_fingerprint [104, 105]) "b" :=
  ⟨(C2_identical_content_same_group readDemo ["a", "b"] _ (List.Perm.refl _)
      "a" "b" [104, 105] rfl rfl (by decide) (by decide)).2.2.1,
   (C2_identical_content_same_group readDemo ["a", "b"] _ (List.Perm.refl _)
      "a" "b" [104, 105] rfl rfl (by decide) (by decide)).2.2.2⟩

/-- Claim C4: A file whose open or read fails yields an empty outcome
(`.ok()` turns the `Err` into `None`): under any completion order that path
is absent from the final map, the pipeline does not abort (the failure is
swallowed at the task boundary), and every path that was read successfully
is still aggregated into the map. -/
theorem C4_failed_file_isolated
    (read : String → Except String (List Nat)) (paths : List String)
    (order : List (Option (Nat × String)))
    (hperm : order.Perm (spawn_tasks read paths))
    (p : String) (err : String) (hp : read p = Except.error err) :
    (hash_file_contents read p).toOption = none ∧
    pathCount (collect_results [] order) p = 0 ∧
    (∀ q ∈ paths, ∀ c, read q = Except.ok c →
      0 < pathCount (collect_results [] order) q) := by
  refine ⟨?_, ?_, ?_⟩
  · rw [hash_file_contents_err hp]
    rfl
  · rw [pathCount_collect, List.Perm.countP_eq _ hperm, countP_spawn_tasks]
    have hz : paths.countP
        (fun r => outcomeHasPath p ((hash_file_contents read r).toOption)) = 0 := by
      rw [List.countP_eq_zero]
      intro r _
      by_cases hrp : r = p
      · subst hrp
        rw [hash_file_contents_err hp]
        simp [outcomeHasPath, Except.toOption]
      · cases hc : read r with
        | error e =>
          rw [hash_file_contents_err hc]
          simp [outcomeHasPath, Except.toOption]
        | ok c =>
          rw [hash_file_contents_ok hc]
          simp [outcomeHasPath, Except.toOption, hrp]
    simp [pathCount, hz]
  · intro q hq c hc
    rw [pathCount_collect, List.Perm.countP_eq _ hperm, countP_spawn_tasks]
    have h1 : 0 < paths.countP
        (fun r => outcomeHasPath q ((hash_file_contents read r).toOption)) := by
      rw [List.countP_pos_iff]
      refine ⟨q, hq, ?_⟩
      rw [hash_file_contents_ok hc]
      simp [outcomeHasPath, Except.toOption]
    simp only [pathCount, List.map_nil, List.sum_nil]
    omega

/-- Witness for C4_failed_file_isolated: the unreadable path `z` is absent
from the final map. -/
theorem C4_witness :
    pathCount (collect_results [] (spawn_tasks readDemo ["a", "z"])) "z" = 0 :=
  (C4_failed_file_isolated readDemo ["a", "z"] _ (List.Perm.refl _)
    "z" "denied" rfl).2.1

/-- Claim C5: Over distinct discovered paths, and under any completion order:
the finished map holds exactly one path entry per successfully hashed file
(`total_files` equals the number of paths whose hash task succeeded), no
path occurs in more than one group or more than once overall, and every
successfully hashed path occurs exactly once — none dropped, none counted
twice. -/
theorem C5_exact_aggregation
    (read : String → Except String (List Nat)) (paths : List String)
    (order : List (Option (Nat × String)))
    (hnd : paths.Nodup)
    (hperm : order.Perm (spawn_tasks read paths)) :
    total_files (collect_results [] order)
      = (paths.filter (fun p => ((hash_file_contents read p).toOption).isSome)).length ∧
    (∀ p, pathCount (collect_results [] order) p ≤ 1) ∧
    (∀ p ∈ paths, ∀ c, read p = Except.ok c →
      pathCount (collect_results [] order) p = 1) := by
  have hbound : ∀ p, pathCount (collect_results [] order) p ≤ 1 := by
    intro p
    rw [pathCount_collect, List.Perm.countP_eq _ hperm, countP_spawn_tasks]
    have himp : ∀ x ∈ paths,
        (outcomeHasPath p ((hash_file_contents read x).toOption)) = true → x = p := by
      intro x _ hx
      cases hc : read x with
      | error e =>
        rw [hash_file_contents_err hc] at hx
        simp [outcomeHasPath, Except.toOption] at hx
      | ok c =>
        rw [hash_file_contents_ok hc] at hx
        simpa [outcomeHasPath, Except.toOption] using hx
    have hle := countP_le_count_of_imp paths
      (fun x => outcomeHasPath p ((hash_file_contents read x).toOption)) p himp
    have hone := (List.nodup_iff_count_le_one.mp hnd) p
    simp only [pathCount, List.map_nil, List.sum_nil]
    omega
  refine ⟨?_, hbound, ?_⟩
  · rw [total_files_collect, List.Perm.countP_eq _ hperm, countP_spawn_tasks,
      List.countP_eq_length_filter]
    simp [total_files]
  · intro p hpin c hc
    have h1 : 0 < pathCount (collect_results [] order) p := by
      rw [pathCount_collect, List.Perm.countP_eq _ hperm, countP_spawn_tasks]
      have hpos : 0 < paths.countP
          (fun r => outcomeHasPath p ((hash_file_contents read r).toOption)) := by
        rw [List.countP_pos_iff]
        refine ⟨p, hpin, ?_⟩
        rw [hash_file_contents_ok hc]
        simp [outcomeHasPath, Except.toOption]
      simp only [pathCount, List.map_nil, List.sum_nil]
      omega
    have h2 := hbound p
    omega

/-- Witness for C5_exact_aggregation: three distinct files, of which `a`
and `b` are readable and `z` is not, aggregate to exactly two entries. -/
theorem C5_witness :
    total_files (collect_results [] (spawn_tasks readDemo ["a", "b", "z"]))
      = (["a", "b", "z"].filter
          (fun p => ((hash_file_contents readDemo p).toOption).isSome)).length :=
  (C5_exact_aggregation readDemo ["a", "b", "z"] _ (by decide)
    (List.Perm.refl _)).1

/-- Claim C6: Outcome application and the exposed counters: applying a
completed `(fingerprint, path)` outcome creates the singleton group
`[path]` when the fingerprint is not yet a key and otherwise appends the
path at the tail of the existing group; and on any map obtained by
draining outcomes the four counters computed by `run` equal, respectively,
the sum of all group sizes, the number of distinct fingerprint keys, the
number of groups of size ≥ 2, and the sum of sizes of groups of size
≥ 2. -/
theorem C6_insert_and_counters (h : Nat) (p : String) (m : HMap)
    (order : List (Option (Nat × String))) :
    (lookupGroup h m = none → lookupGroup h (insertPush h p m) = some [p]) ∧
    (∀ l, lookupGroup h m = some l →
      lookupGroup h (insertPush h p m) = some (l ++ [p])) ∧
    total_files (collect_results [] order)
      = spec_sum_of_group_sizes (collect_results [] order) ∧
    unique_hashes (collect_results [] order)
      = spec_distinct_fingerprints (collect_results [] order) ∧
    duplicate_groups (collect_results [] order)
      = spec_duplicate_groups (collect_results [] order) ∧
    duplicate_files (collect_results [] order)
      = spec_duplicate_files (collect_results [] order) := by
  refine ⟨?_, ?_, total_files_eq_spec _,
    unique_hashes_eq_spec (nodup_mapKeys_collect _ _ (by simp [mapKeys])),
    duplicate_groups_eq_spec _, duplicate_files_eq_spec _⟩
  · intro hnone
    rw [lookupGroup_insertPush_self, hnone]
    rfl
  · intro l hsome
    rw [lookupGroup_insertPush_self, hsome]
    rfl

/-- Witness for C6_insert_and_counters: inserting into a map without the
key creates the singleton group. -/
theorem C6_witness :
    lookupGroup 0 (insertPush 0 "a" []) = some ["a"] :=
  (C6_insert_and_counters 0 "a" [] []).1 rfl

/-- Claim C9: In stdin-list mode a readable file path occurring `k` times in
the input is queued `k` times (one hash task per occurrence) and its
canonical path is appended `k` times to the single group keyed by its
content fingerprint; for `k ≥ 2` that group has size > 1, i.e. a single
file is reported as a duplicate set of itself. -/
theorem C9_repeated_stdin_line (fsys : FileSys) (files : List String)
    (order : List (Option (Nat × String)))
    (l cp : String) (content : List Nat) (k : Nat)
    (hne : l.isEmpty = false) (hc : fsys.canonicalize l = some cp)
    (hd : fsys.is_dir cp = false) (hr : fsys.read cp = Except.ok content)
    (hk : files.count l = k)
    (hother : ∀ x ∈ files, x ≠ l → cp ∉ line_contribution fsys x)
    (hperm : order.Perm (spawn_tasks fsys.read (discovered_paths_list fsys files))) :
    (discovered_paths_list fsys files).count cp = k ∧
    groupCount (collect_results [] order) (file_fingerprint content) cp = k ∧
    pathCount (collect_results [] order) cp = k ∧
    (2 ≤ k → 1 < ((lookupGroup (file_fingerprint content)
        (collect_results [] order)).getD []).length) := by
  have hl : line_contribution fsys l = [cp] := by
    simp [line_contribution, hne, hc, hd]
  have hcount := count_discovered_paths_list fsys files l cp hl hother
  rw [hk] at hcount
  have hgpred : ∀ r : String,
      (isOutcome (file_fingerprint content) cp
        ((hash_file_contents fsys.read r).toOption)) = (r == cp) := by
    intro r
    by_cases hrc : r = cp
    · subst hrc
      rw [hash_file_contents_ok hr]
      simp [isOutcome, Except.toOption]
    · cases hx : fsys.read r with
      | error e =>
        rw [hash_file_contents_err hx]
        simp [isOutcome, Except.toOption, hrc]
      | ok c2 =>
        rw [hash_file_contents_ok hx]
        simp [isOutcome, Except.toOption, hrc]
  have hppred : ∀ r : String,
      (outcomeHasPath cp ((hash_file_contents fsys.read r).toOption)) = (r == cp) := by
    intro r
    by_cases hrc : r = cp
    · subst hrc
      rw [hash_file_contents_ok hr]
      simp [outcomeHasPath, Except.toOption]
    · cases hx : fsys.read r with
      | error e =>
        rw [hash_file_contents_err hx]
        simp [outcomeHasPath, Except.toOption, hrc]
      | ok c2 =>
        rw [hash_file_contents_ok hx]
        simp [outcomeHasPath, Except.toOption, hrc]
  have hgc : groupCount (collect_results [] order) (file_fingerprint content) cp = k := by
    rw [groupCount_collect, List.Perm.countP_eq _ hperm, countP_spawn_tasks,
      List.countP_congr (fun x _ => by rw [hgpred x])]
    simpa [groupCount, lookupGroup, List.count] using hcount
  have hpc : pathCount (collect_results [] order) cp = k := by
    rw [pathCount_collect, List.Perm.countP_eq _ hperm, countP_spawn_tasks,
      List.countP_congr (fun x _ => by rw [hppred x])]
    simpa [pathCount, List.count] using hcount
  refine ⟨hcount, hgc, hpc, ?_⟩
  intro h2
  have hle := List.count_le_length cp
    ((lookupGroup (file_fingerprint content) (collect_results [] order)).getD [])
  unfold groupCount at hgc
  omega

/-- Witness for C9_repeated_stdin_line: the line `x` given twice yields a
duplicate group of size 2 for the single file `/x`. -/
theorem C9_witness :
    1 < ((lookupGroup (file_fingerprint [7])
        (collect_results [] (spawn_tasks fsListDemo.read
          (discovered_paths_list fsListDemo ["x", "x"])))).getD []).length :=
  (C9_repeated_stdin_line fsListDemo ["x", "x"] _ "x" "/x" [7] 2
    rfl rfl rfl rfl (by decide) (by decide) (List.Perm.refl _)).2.2.2 (by omega)

/-- Claim C10: In stdin-list mode an empty input line, or a line whose
canonicalization fails, is skipped silently: it contributes no path, the
discovered sequence (hence the whole outcome of the run) is the same as if
the line were absent, and the pipeline still returns success. -/
theorem C10_bad_lines_skipped (fsys : FileSys) (l1 l2 : List String)
    (bad : String) (m : HMap)
    (hbad : bad.isEmpty = true ∨ fsys.canonicalize bad = none) :
    line_contribution fsys bad = [] ∧
    discovered_paths_list fsys (l1 ++ bad :: l2)
      = discovered_paths_list fsys (l1 ++ l2) ∧
    find_duplicates_from_list fsys (l1 ++ bad :: l2) m
      = Except.ok (collect_results m
          (spawn_tasks fsys.read (discovered_paths_list fsys (l1 ++ l2)))) := by
  have hlc : line_contribution fsys bad = [] := by
    cases hbad with
    | inl he => simp [line_contribution, he]
    | inr hc =>
      by_cases he : bad.isEmpty
      · simp [line_contribution, he]
      · simp [line_contribution, he, hc]
  have hdd : discovered_paths_list fsys (l1 ++ bad :: l2)
      = discovered_paths_list fsys (l1 ++ l2) := by
    rw [discovered_paths_list_append, discovered_paths_list_append]
    show discovered_paths_list fsys l1
        ++ (line_contribution fsys bad ++ discovered_paths_list fsys l2) = _
    rw [hlc]
    simp
  exact ⟨hlc, hdd, by simp [find_duplicates_from_list, hdd]⟩

/-- Witness for C10_bad_lines_skipped: an empty line between `x` and `y`
changes nothing. -/
theorem C10_witness :
    discovered_paths_list fsListDemo ["x", "", "y"]
      = discovered_paths_list fsListDemo ["x", "y"] :=
  (C10_bad_lines_skipped fsListDemo ["x"] ["y"] "" [] (Or.inl rfl)).2.1

/-- Claim C7: The concurrency gate: under every valid instrumented schedule
starting from `Semaphore::new(100)` with `m` pending hash tasks, the number
of tasks simultaneously holding a permit (and with it an open file handle)
never exceeds 100; every task acquires at most once and releases at most
once; and every task that ran to completion — success and per-file failure
alike — acquired and released its permit exactly once. -/
theorem C7_gate_bound (m : Nat) (trace : List GateEvent) (s' : GateState)
    (h : runGate (initGate m) trace = some s') :
    countHolding s'.tasks ≤ 100 ∧
    (∀ i, countAcquires trace i ≤ 1 ∧ countReleases trace i ≤ 1) ∧
    (∀ i, i < m → phaseAt s' i = TaskPhase.done →
      countAcquires trace i = 1 ∧ countReleases trace i = 1) := by
  obtain ⟨hlen, hinv, hcounts⟩ := runGate_spec trace (initGate m) s' h
  have hinit_holding : countHolding (initGate m).tasks = 0 := by
    refine List.countP_eq_zero.mpr ?_
    intro a ha
    simp only [initGate] at ha
    rw [List.eq_of_mem_replicate ha]
    decide
  have h100 : (initGate m).available = 100 := rfl
  have hphase : ∀ i, phaseAt (initGate m) i
      = if i < m then TaskPhase.waiting else TaskPhase.done := by
    intro i
    by_cases him : i < m <;>
      simp [phaseAt, initGate, List.getElem?_replicate, him]
  have hrank1 : ∀ t, startedRank t ≤ 1 := by
    intro t
    cases t <;> decide
  have hrank2 : ∀ t, finishedRank t ≤ 1 := by
    intro t
    cases t <;> decide
  have hsw : startedRank TaskPhase.waiting = 0 := rfl
  have hfw : finishedRank TaskPhase.waiting = 0 := rfl
  have hsd : startedRank TaskPhase.done = 1 := rfl
  have hfd : finishedRank TaskPhase.done = 1 := rfl
  rw [hinit_holding, h100] at hinv
  refine ⟨by omega, ?_, ?_⟩
  · intro i
    obtain ⟨ha, hr⟩ := hcounts i
    rw [hphase i] at ha hr
    have h1 := hrank1 (phaseAt s' i)
    have h2 := hrank2 (phaseAt s' i)
    by_cases him : i < m
    · rw [if_pos him, hsw] at ha
      rw [if_pos him, hfw] at hr
      omega
    · rw [if_neg him, hsd] at ha
      rw [if_neg him, hfd] at hr
      omega
  · intro i him hdone
    obtain ⟨ha, hr⟩ := hcounts i
    rw [hphase i, if_pos him, hdone, hsw, hsd] at ha
    rw [hphase i, if_pos him, hdone, hfw, hfd] at hr
    omega

/-- Witness for C7_gate_bound: a concrete two-task schedule that overlaps
both acquisitions, runs to completion, and respects the bound. -/
theorem C7_witness :
    countHolding [TaskPhase.done, TaskPhase.done] ≤ 100 :=
  (C7_gate_bound 2
    [GateEvent.acquire 0, GateEvent.acquire 1, GateEvent.release 1, GateEvent.release 0]
    ⟨100, [TaskPhase.done, TaskPhase.done]⟩ (by decide)).1

end Redup
